import Mathlib

/-!
Shallow embedding of the passage pipeline of the geological-tiff-search
repository: the text normalizer and chunker of src/text_processor.py, the
ranked search of src/search_engine.py and the context assembler / answer
pipeline of src/rag_system.py.  Python strings are modelled as lists of
code points (List Char), cosine similarities as rationals.
-/

namespace Geo

/-- Python whitespace class (the regex class \s over the repertoire used by
this pipeline: space, tab, newline, carriage return, vertical tab, form
feed). -/
def pyIsSpace (c : Char) : Bool :=
  c = ' ' || c = '\t' || c = '\n' || c = '\r' || c = '\x0b' || c = '\x0c'

/-- Python str.strip: remove leading and trailing whitespace. -/
def pyStrip (l : List Char) : List Char :=
  ((l.dropWhile pyIsSpace).reverse.dropWhile pyIsSpace).reverse

/-- Python str.split on a newline separator; like the Python method it always
returns at least one (possibly empty) field. -/
def splitNL : List Char → List (List Char)
  | [] => [[]]
  | c :: rest =>
    if c = '\n' then [] :: splitNL rest
    else
      match splitNL rest with
      | [] => [[c]]
      | g :: gs => (c :: g) :: gs

/-- One pass of the regex substitution p+ -> " ": each maximal run of
characters satisfying p becomes a single space.  The flag records whether the
previous character belonged to the current run. -/
def collapseRunsAux (p : Char → Bool) : Bool → List Char → List Char
  | _, [] => []
  | inRun, c :: rest =>
    if p c then
      if inRun then collapseRunsAux p true rest
      else ' ' :: collapseRunsAux p true rest
    else c :: collapseRunsAux p false rest

/-- Regex substitution p+ -> " " (used for the pipe-run and the
whitespace-run substitutions of clean_ocr_text). -/
def collapseRuns (p : Char → Bool) (l : List Char) : List Char :=
  collapseRunsAux p false l

/-- Characters forming ruled-line artifacts (the regex class of the second
substitution of clean_ocr_text). -/
def isRuleChar (c : Char) : Bool := c = '_' || c = '-'

/-- Regex substitution of runs of 3 or more underscores or hyphens by one
space; shorter runs are kept verbatim. -/
def removeRuledLines : List Char → List Char
  | [] => []
  | c :: rest =>
    if isRuleChar c then
      let run := rest.takeWhile isRuleChar
      let next := removeRuledLines (rest.dropWhile isRuleChar)
      if 2 ≤ run.length then ' ' :: next else c :: (run ++ next)
    else c :: removeRuledLines rest
termination_by l => l.length
decreasing_by
  · exact Nat.lt_succ_of_le ((List.dropWhile_sublist isRuleChar).length_le)
  · simp

/-- Python regex \w modelled over the repertoire of this corpus: ASCII
alphanumerics, the underscore, and the Cyrillic block U+0400-U+04FF. -/
def isPyWordChar (c : Char) : Bool :=
  c.isAlphanum || c = '_' || (0x400 ≤ c.toNat && c.toNat ≤ 0x4FF)

/-- Punctuation allowlist of the character-class substitution of
clean_ocr_text. -/
def allowedPunct : List Char :=
  ['.', ',', ';', ':', '!', '?', '(', ')', '[', ']', '№', '%', '-', '/']

/-- A character kept by the substitution that blanks everything outside word
characters, whitespace, the Cyrillic letter range of the pattern, and the
punctuation allowlist. -/
def allowedChar (c : Char) : Bool :=
  isPyWordChar c || pyIsSpace c || (0x410 ≤ c.toNat && c.toNat ≤ 0x44F)
    || allowedPunct.contains c

/-- Characters of the leading punctuation run removed at line starts by the
fifth substitution of clean_ocr_text. -/
def isPunctRun (c : Char) : Bool := c = '.' || c = '-' || c = '|'

/-- One attempted match of the anchored pattern of leading whitespace, a run
of periods, hyphens or pipes, and trailing whitespace.  On success, returns
the remainder after the removed match together with the flag telling whether
the last removed character was a newline (in which case the position after
the match is again a line anchor); none when the pattern does not match at
this anchor. -/
def anchorMatch (l : List Char) : Option (List Char × Bool) :=
  match l.dropWhile pyIsSpace with
  | [] => none
  | c :: t =>
    if isPunctRun c then
      let r := (t.dropWhile isPunctRun).dropWhile pyIsSpace
      some (r, (l.take (l.length - r.length)).getLast? == some '\n')
    else none

/-- Regex substitution removing, at the start of the string and after every
newline, leading whitespace followed by a run of periods, hyphens or pipes
and trailing whitespace (the MULTILINE substitution of clean_ocr_text).  The
flag tells whether the current position is a line anchor. -/
def stripLeadingPunct : Bool → List Char → List Char
  | true, l =>
    match h : anchorMatch l with
    | some (r, true) => stripLeadingPunct true r
    | some (r, false) => stripLeadingPunct false r
    | none => stripLeadingPunct false l
  | false, [] => []
  | false, c :: rest =>
    if c = '\n' then c :: stripLeadingPunct true rest
    else c :: stripLeadingPunct false rest
termination_by b l => (l.length, if b then 1 else 0)
decreasing_by
  · apply Prod.Lex.left
    revert h
    unfold anchorMatch
    cases hd : l.dropWhile pyIsSpace with
    | nil => intro h; cases h
    | cons c t =>
      by_cases hc : isPunctRun c = true
      · simp only [hc, if_true]
        intro h
        have hr : r = (t.dropWhile isPunctRun).dropWhile pyIsSpace := by
          injection h with h1; injection h1 with h2 h3; exact h2.symm
        have h2 : r.length ≤ t.length := by
          rw [hr]
          exact le_trans (List.dropWhile_sublist pyIsSpace).length_le
            (List.dropWhile_sublist isPunctRun).length_le
        have h3 : t.length < (l.dropWhile pyIsSpace).length := by
          rw [hd]; simp
        exact lt_of_lt_of_le (lt_of_le_of_lt h2 h3)
          (List.dropWhile_sublist pyIsSpace).length_le
      · simp only [hc, if_false]
        intro h; cases h
  · apply Prod.Lex.left
    revert h
    unfold anchorMatch
    cases hd : l.dropWhile pyIsSpace with
    | nil => intro h; cases h
    | cons c t =>
      by_cases hc : isPunctRun c = true
      · simp only [hc, if_true]
        intro h
        have hr : r = (t.dropWhile isPunctRun).dropWhile pyIsSpace := by
          injection h with h1; injection h1 with h2 h3; exact h2.symm
        have h2 : r.length ≤ t.length := by
          rw [hr]
          exact le_trans (List.dropWhile_sublist pyIsSpace).length_le
            (List.dropWhile_sublist isPunctRun).length_le
        have h3 : t.length < (l.dropWhile pyIsSpace).length := by
          rw [hd]; simp
        exact lt_of_lt_of_le (lt_of_le_of_lt h2 h3)
          (List.dropWhile_sublist pyIsSpace).length_le
      · simp only [hc, if_false]
        intro h; cases h
  · apply Prod.Lex.right
    simp
  · apply Prod.Lex.left
    simp
  · apply Prod.Lex.left
    simp

/-- Regex substitution collapsing a newline, whitespace, newline region into a
single newline: each maximal whitespace region starting at a newline and
containing a further newline collapses, up to its last newline, into one
newline. -/
def collapseBlankLines : List Char → List Char
  | [] => []
  | c :: rest =>
    if c = '\n' then
      let run := rest.takeWhile pyIsSpace
      if run.contains '\n' then
        let tailSpaces := (run.reverse.takeWhile fun x => !(x == '\n')).length
        '\n' :: collapseBlankLines (rest.drop (run.length - tailSpaces))
      else c :: collapseBlankLines rest
    else c :: collapseBlankLines rest
termination_by l => l.length
decreasing_by
  · exact Nat.lt_succ_of_le ((List.drop_sublist _ _).length_le)
  · simp
  · simp

/-- clean_ocr_text of src/text_processor.py: the six regex substitutions
followed by splitting into lines, stripping each, and dropping lines of
length at most 2.  A total, deterministic function. -/
def clean_ocr_text (text : List Char) : List Char :=
  let t1 := collapseRuns (fun c => c == '|') text
  let t2 := removeRuledLines t1
  let t3 := t2.map fun c => if allowedChar c then c else ' '
  let t4 := collapseRuns pyIsSpace t3
  let t5 := stripLeadingPunct true t4
  let t6 := collapseBlankLines t5
  let clean_lines := ((splitNL t6).map pyStrip).filter fun l => decide (2 < l.length)
  List.intercalate ['\n'] clean_lines

/-- Python slice-index normalization: a negative index counts from the end of
the string, results are clamped to the interval from 0 to the length. -/
def pyNorm (n : Nat) (i : Int) : Nat :=
  if i < 0 then ((n : Int) + i).toNat else min i.toNat n

/-- Python text[a:b] on code points. -/
def pySlice (l : List Char) (a b : Int) : List Char :=
  (l.take (pyNorm l.length b)).drop (pyNorm l.length a)

/-- Greatest index j with lo ≤ j < hi holding character c, scanning hi
downward; -1 when none exists. -/
def rfindAux (l : List Char) (c : Char) (lo : Nat) : Nat → Int
  | 0 => -1
  | hi + 1 =>
    if lo ≤ hi ∧ l[hi]? = some c then (hi : Int)
    else rfindAux l c lo hi

/-- Python text.rfind(c, a, b) for a single-character needle. -/
def pyRfind (l : List Char) (c : Char) (a b : Int) : Int :=
  rfindAux l c (pyNorm l.length a) (pyNorm l.length b)

/-- Break characters preferred by the chunker: space, newline, period. -/
def isBreakChar (c : Char) : Bool := c = ' ' || c = '\n' || c = '.'

/-- The preferred break position of the chunker's window: the maximum of the
last space, the last newline and the last period found in text[a:b]. -/
def bestBreak (text : List Char) (a b : Int) : Int :=
  max (max (pyRfind text ' ' a b) (pyRfind text '\n' a b)) (pyRfind text '.' a b)

/-- One computation of a chunk's end position in split_text_into_chunks: the
candidate end, then, when the candidate end is interior, the preferred break
(the rightmost space, newline or period in the window) plus one. -/
def chunkEnd (text : List Char) (chunk_size : Nat) (start : Int) : Int :=
  let n : Int := text.length
  let e := min (start + chunk_size) n
  if e < n then
    if start < bestBreak text start e then bestBreak text start e + 1 else e
  else e

/-- The advance of the scanning loop of split_text_into_chunks: none when the
loop is about to stop (start has reached the end of the text, or the current
iteration's chunk reaches the end), otherwise the next start position. -/
def nextStart (text : List Char) (chunk_size overlap : Nat) (start : Int) : Option Int :=
  if start < (text.length : Int) then
    let e := chunkEnd text chunk_size start
    if (text.length : Int) ≤ e then none
    else some (max (start + chunk_size - overlap) (e - overlap))
  else none

/-- The scanning loop of split_text_into_chunks with explicit fuel: none
models a run exceeding the given number of iterations (the loop of the source
has no iteration bound; fuel text.length is sufficient whenever
overlap < chunk_size, and a configuration yielding none at every fuel is a
diverging loop). -/
def splitLoop (text : List Char) (chunk_size overlap : Nat) : Nat → Int → Option (List (List Char))
  | fuel, start =>
    if start < (text.length : Int) then
      match fuel with
      | 0 => none
      | f + 1 =>
        let e := chunkEnd text chunk_size start
        let chunk := pyStrip (pySlice text start e)
        let rest :=
          if (text.length : Int) ≤ e then some []
          else splitLoop text chunk_size overlap f
            (max (start + chunk_size - overlap) (e - overlap))
        rest.map fun r => if chunk.isEmpty then r else chunk :: r
    else some []

/-- split_text_into_chunks of src/text_processor.py.  The scanning loop runs
with fuel text.length + 1, which is sufficient for every configuration with
overlap < chunk_size; a diverging configuration falls back to []. -/
def split_text_into_chunks (text : List Char) (chunk_size overlap : Nat) : List (List Char) :=
  if text.length ≤ chunk_size then [text]
  else (splitLoop text chunk_size overlap (text.length + 1) 0).getD []

/-- The source-text regions (start, end) visited by the scanning loop of
split_text_into_chunks, one pair per iteration, with explicit fuel. -/
def regionsLoop (text : List Char) (chunk_size overlap : Nat) : Nat → Int → List (Int × Int)
  | fuel, start =>
    if start < (text.length : Int) then
      match fuel with
      | 0 => []
      | f + 1 =>
        (start, chunkEnd text chunk_size start) ::
          (if (text.length : Int) ≤ chunkEnd text chunk_size start then []
           else regionsLoop text chunk_size overlap f
             (max (start + chunk_size - overlap) (chunkEnd text chunk_size start - overlap)))
    else []

/-- One indexed chunk as stored in the search index (the dict fields written
by src/text_processor.py; is_target is the key get_chunk_context writes on
the stored dicts). -/
structure Chunk where
  chunk_id : List Char
  file_id : List Char
  filename : List Char
  chunk_index : Nat
  text : List Char
  is_target : Option Bool
deriving DecidableEq, Inhabited

/-- Similarity of index row i under a fixed query: the query enters search
only through its vector of cosine similarities against the embedding matrix,
abstracted here to one rational per row. -/
def simAt (sims : List ℚ) (i : Nat) : ℚ := sims.getD i 0

/-- Ranking order realizing np.argsort of the similarities, reversed: index i
precedes index j when its similarity is at least as large. -/
def simGE (sims : List ℚ) (i j : Nat) : Prop := simAt sims j ≤ simAt sims i

instance (sims : List ℚ) : DecidableRel (simGE sims) := fun i j =>
  inferInstanceAs (Decidable (simAt sims j ≤ simAt sims i))

instance (sims : List ℚ) : IsTotal Nat (simGE sims) :=
  ⟨fun i j => le_total (simAt sims j) (simAt sims i)⟩

instance (sims : List ℚ) : IsTrans Nat (simGE sims) :=
  ⟨fun _ _ _ hab hbc => le_trans hbc hab⟩

/-- The ranked index list of search: all row indices sorted by similarity,
descending. -/
def argsortDesc (sims : List ℚ) : List Nat :=
  List.insertionSort (simGE sims) (List.range sims.length)

/-- A search result: a copy of the stored chunk annotated with the similarity
and the 1-based rank. -/
structure SearchResult where
  chunk : Chunk
  similarity : ℚ
  rank : Nat
deriving DecidableEq, Inhabited

/-- Concrete sample chunk used to exercise the definitions on closed
inputs. -/
def sampleChunkA : Chunk :=
  { chunk_id := ['a'], file_id := ['f'], filename := ['f'], chunk_index := 0,
    text := ['x'], is_target := none }

/-- Second concrete sample chunk of the same document. -/
def sampleChunkB : Chunk :=
  { chunk_id := ['b'], file_id := ['f'], filename := ['f'], chunk_index := 1,
    text := ['y'], is_target := none }

/-- Concrete sample search result. -/
def sampleResult : SearchResult :=
  { chunk := sampleChunkA, similarity := 1, rank := 1 }

/-- The emission loop of GeologicalSearchEngine.search: walk the ranked
indices with counter i, stopping as soon as top_k results were emitted or the
next candidate's similarity falls below the floor. -/
def searchLoop (chunks : List Chunk) (sims : List ℚ) (top_k : Nat) (min_similarity : ℚ) :
    List Nat → Nat → List SearchResult
  | [], _ => []
  | idx :: rest, i =>
    if top_k ≤ i then []
    else if simAt sims idx < min_similarity then []
    else
      ⟨chunks.getD idx default, simAt sims idx, i + 1⟩ ::
        searchLoop chunks sims top_k min_similarity rest (i + 1)

/-- GeologicalSearchEngine.search over a loaded index: chunks is the stored
chunk list, sims the query's similarity vector over the embedding matrix
rows.  Defaults of the source: top_k 5, min_similarity 0. -/
def search (chunks : List Chunk) (sims : List ℚ) (top_k : Nat) (min_similarity : ℚ) :
    List SearchResult :=
  searchLoop chunks sims top_k min_similarity (argsortDesc sims) 0

/-- The loaded index snapshot of the search engine. -/
structure Snapshot where
  chunks : List Chunk
  embeddings : List (List ℚ)
  model_name : List Char
  total_chunks : Nat
  embedding_dim : Nat
deriving DecidableEq

/-- Chunk index stored at position p of the chunk list. -/
def chunkIndexAt (chunks : List Chunk) (p : Nat) : Nat :=
  (chunks.getD p default).chunk_index

/-- Position order used by the stable sort of the file's chunks by
chunk_index in get_chunk_context. -/
def posLE (chunks : List Chunk) (p q : Nat) : Prop :=
  chunkIndexAt chunks p ≤ chunkIndexAt chunks q

instance (chunks : List Chunk) : DecidableRel (posLE chunks) := fun p q =>
  inferInstanceAs (Decidable (chunkIndexAt chunks p ≤ chunkIndexAt chunks q))

instance (chunks : List Chunk) : IsTotal Nat (posLE chunks) :=
  ⟨fun p q => le_total (chunkIndexAt chunks p) (chunkIndexAt chunks q)⟩

instance (chunks : List Chunk) : IsTrans Nat (posLE chunks) :=
  ⟨fun _ _ _ hab hbc => le_trans hab hbc⟩

/-- get_chunk_context of src/search_engine.py in state-passing form.  The
second component is the snapshot after the call: the source writes the
is_target key onto the chunk dicts held by the loaded index (the dicts are
aliased, not copied), so the write is modelled as an update of the stored
chunk list; search copies each emitted chunk before annotating it and
performs no write to the snapshot. -/
def get_chunk_context (snap : Snapshot) (chunk_id : List Char) (context_size : Nat) :
    List Chunk × Snapshot :=
  match (List.range snap.chunks.length).find?
      (fun p => (snap.chunks.getD p default).chunk_id == chunk_id) with
  | none => ([], snap)
  | some target_idx =>
    let target := snap.chunks.getD target_idx default
    let filePos := (List.range snap.chunks.length).filter
      fun p => (snap.chunks.getD p default).file_id == target.file_id
    let sorted := List.insertionSort (posLE snap.chunks) filePos
    match (List.range sorted.length).find?
        (fun q => (snap.chunks.getD (sorted.getD q 0) default).chunk_id == chunk_id) with
    | none => ([target], snap)
    | some target_pos =>
      let a := target_pos - context_size
      let b := min sorted.length (target_pos + context_size + 1)
      let window := (sorted.drop a).take (b - a)
      let newChunks := window.foldl
        (fun cl p => cl.set p
          { cl.getD p default with
            is_target := some ((cl.getD p default).chunk_id == chunk_id) })
        snap.chunks
      (window.map fun p => newChunks.getD p default, { snap with chunks := newChunks })

/-- Confidence labels of the answer pipeline; the source uses the Russian
strings for high, medium and low. -/
inductive Confidence where
  | high
  | medium
  | low
deriving DecidableEq

/-- One provenance entry of the answer: filename, chunk id and the similarity
rounded to three decimals. -/
structure SourceRef where
  filename : List Char
  chunk_id : List Char
  similarity : ℚ
deriving DecidableEq

/-- The dictionary returned by ask_question; chunks_used is absent (none) in
the not-found branch. -/
structure AskResult where
  question : List Char
  answer : List Char
  sources : List SourceRef
  confidence : Confidence
  chunks_used : Option Nat
  error : Option (List Char)
deriving DecidableEq

/-- The labelled context block one chunk contributes in
create_context_from_chunks. -/
def formatChunk (r : SearchResult) : List Char :=
  "\n--- Документ ".toList ++ r.chunk.filename ++ ", фрагмент ".toList
    ++ (toString r.chunk.chunk_index).toList ++ " ---\n".toList
    ++ r.chunk.text ++ "\n".toList

/-- Token-cost heuristic of the context assembler: length divided by 4,
rounding down. -/
def estTokens (t : List Char) : Nat := t.length / 4

/-- The accumulation loop of create_context_from_chunks: append whole
formatted chunks in order while the running token estimate stays within the
budget; stop at the first chunk that would exceed it. -/
def contextParts (max_tokens : Nat) : List SearchResult → Nat → List (List Char)
  | [], _ => []
  | r :: rest, current =>
    let t := formatChunk r
    if max_tokens < current + estTokens t then []
    else t :: contextParts max_tokens rest (current + estTokens t)

/-- create_context_from_chunks of src/rag_system.py (source default budget:
6000 estimated tokens). -/
def create_context_from_chunks (chunks : List SearchResult) (max_tokens : Nat) : List Char :=
  List.intercalate ['\n'] (contextParts max_tokens chunks 0)

/-- Python round to three decimal places (half to even) on the rational
model. -/
def round3 (q : ℚ) : ℚ :=
  let scaled := q * 1000
  let f := ⌊scaled⌋
  let k : ℤ :=
    if scaled - f < 1 / 2 then f
    else if 1 / 2 < scaled - f then f + 1
    else if 2 ∣ f then f else f + 1
  (k : ℚ) / 1000

/-- The fixed not-found answer of ask_question. -/
def notFoundAnswer : List Char :=
  ("К сожалению, я не нашел релевантной информации в доступных " ++
   "геологических документах для ответа на ваш вопрос.").toList

/-- The user prompt assembled by ask_question from the context and the
question. -/
def userPrompt (context question : List Char) : List Char :=
  "\nКонтекст из геологических документов:\n".toList ++ context
    ++ "\n\nВопрос пользователя: ".toList ++ question
    ++ ("\n\nПроанализируй предоставленные документы и дай развернутый " ++
        "ответ на вопрос. Обязательно укажи, из каких документов взята " ++
        "информация.\n").toList

/-- Mean similarity across a result list. -/
def meanSim (results : List SearchResult) : ℚ :=
  (results.map SearchResult.similarity).sum / (results.length : ℚ)

/-- Confidence label from the mean similarity of the returned results. -/
def confidenceOf (results : List SearchResult) : Confidence :=
  if 3 / 10 < meanSim results then Confidence.high
  else if 1 / 10 < meanSim results then Confidence.medium
  else Confidence.low

/-- ask_question of src/rag_system.py in shallow form: the loaded index is
(chunks, sims), the external chat completion is the total function generate,
and the boolean of the result records whether generate was called.  Source
defaults: max_chunks 5, min_similarity 1/100.  The exception branch around
the external call is not modelled (generate is total); no claim concerns
it. -/
def ask_question (question : List Char) (chunks : List Chunk) (sims : List ℚ)
    (generate : List Char → List Char) (max_chunks : Nat) (min_similarity : ℚ) :
    AskResult × Bool :=
  let search_results := search chunks sims max_chunks min_similarity
  if search_results.isEmpty then
    ({ question := question, answer := notFoundAnswer, sources := [],
       confidence := Confidence.low, chunks_used := none, error := none }, false)
  else
    let context := create_context_from_chunks search_results 6000
    let answer := pyStrip (generate (userPrompt context question))
    let sources := search_results.map fun r =>
      ({ filename := r.chunk.filename, chunk_id := r.chunk.chunk_id,
         similarity := round3 r.similarity } : SourceRef)
    ({ question := question, answer := answer, sources := sources,
       confidence := confidenceOf search_results,
       chunks_used := some search_results.length, error := none }, true)

/-! Helper lemmas about the emission loop of search. -/

theorem searchLoop_mem (chunks : List Chunk) (sims : List ℚ) (k : Nat) (m : ℚ) :
    ∀ (l : List Nat) (i : Nat) (r : SearchResult), r ∈ searchLoop chunks sims k m l i →
      m ≤ r.similarity ∧ ∃ idx, idx ∈ l ∧ r.similarity = simAt sims idx := by
  intro l
  induction l with
  | nil => intro i r h; simp [searchLoop] at h
  | cons idx rest ih =>
    intro i r h
    rw [searchLoop] at h
    by_cases h1 : k ≤ i
    · rw [if_pos h1] at h; simp at h
    · rw [if_neg h1] at h
      by_cases h2 : simAt sims idx < m
      · rw [if_pos h2] at h; simp at h
      · rw [if_neg h2] at h
        rcases List.mem_cons.mp h with h3 | h3
        · subst h3
          exact ⟨le_of_not_lt h2, idx, List.mem_cons_self idx rest, rfl⟩
        · obtain ⟨hm, idx2, hi2, hs2⟩ := ih (i + 1) r h3
          exact ⟨hm, idx2, List.mem_cons_of_mem idx hi2, hs2⟩

theorem searchLoop_length_mono (chunks : List Chunk) (sims : List ℚ) (k : Nat)
    {m m2 : ℚ} (hm : m ≤ m2) :
    ∀ (l : List Nat) (i : Nat),
      (searchLoop chunks sims k m2 l i).length ≤ (searchLoop chunks sims k m l i).length := by
  intro l
  induction l with
  | nil => intro i; simp [searchLoop]
  | cons idx rest ih =>
    intro i
    rw [searchLoop, searchLoop]
    by_cases h1 : k ≤ i
    · simp [h1]
    · rw [if_neg h1, if_neg h1]
      by_cases h2 : simAt sims idx < m
      · rw [if_pos h2, if_pos (lt_of_lt_of_le h2 hm)]
      · rw [if_neg h2]
        by_cases h3 : simAt sims idx < m2
        · rw [if_pos h3]; simp
        · rw [if_neg h3]
          simpa using ih (i + 1)

theorem searchLoop_length_le (chunks : List Chunk) (sims : List ℚ) (k : Nat) (m : ℚ) :
    ∀ (l : List Nat) (i : Nat), (searchLoop chunks sims k m l i).length ≤ k - i := by
  intro l
  induction l with
  | nil => intro i; simp [searchLoop]
  | cons idx rest ih =>
    intro i
    rw [searchLoop]
    by_cases h1 : k ≤ i
    · simp [h1]
    · rw [if_neg h1]
      by_cases h2 : simAt sims idx < m
      · simp [h2]
      · rw [if_neg h2]
        have := ih (i + 1)
        simp only [List.length_cons]
        omega

theorem searchLoop_rank_map (chunks : List Chunk) (sims : List ℚ) (k : Nat) (m : ℚ) :
    ∀ (l : List Nat) (i : Nat),
      (searchLoop chunks sims k m l i).map SearchResult.rank =
        List.range' (i + 1) (searchLoop chunks sims k m l i).length := by
  intro l
  induction l with
  | nil => intro i; simp [searchLoop]
  | cons idx rest ih =>
    intro i
    rw [searchLoop]
    by_cases h1 : k ≤ i
    · simp [h1]
    · rw [if_neg h1]
      by_cases h2 : simAt sims idx < m
      · simp [h2]
      · rw [if_neg h2]
        simp only [List.map_cons, List.length_cons, List.range'_succ]
        exact congrArg (List.cons (i + 1)) (ih (i + 1))

theorem searchLoop_pairwise (chunks : List Chunk) (sims : List ℚ) (k : Nat) (m : ℚ) :
    ∀ (l : List Nat) (i : Nat), List.Sorted (simGE sims) l →
      (searchLoop chunks sims k m l i).Pairwise
        (fun r r2 => r2.similarity ≤ r.similarity) := by
  intro l
  induction l with
  | nil => intro i _; simp [searchLoop]
  | cons idx rest ih =>
    intro i hs
    obtain ⟨hhead, htail⟩ := List.sorted_cons.mp hs
    rw [searchLoop]
    by_cases h1 : k ≤ i
    · simp [h1]
    · rw [if_neg h1]
      by_cases h2 : simAt sims idx < m
      · simp [h2]
      · rw [if_neg h2]
        refine List.Pairwise.cons ?_ (ih (i + 1) htail)
        intro r hr
        obtain ⟨-, idx2, hi2, hs2⟩ := searchLoop_mem chunks sims k m rest (i + 1) r hr
        simpa [hs2] using hhead idx2 hi2

/-- Claim C2: for every loaded index, every query (entering through its
similarity vector), every top_k and every threshold m, no result returned by
search has similarity below m, and raising the threshold never increases the
number of results. -/
theorem claim_C2 : ∀ (chunks : List Chunk) (sims : List ℚ) (top_k : Nat) (m : ℚ),
    (∀ r ∈ search chunks sims top_k m, m ≤ r.similarity) ∧
    (∀ m2 : ℚ, m ≤ m2 →
      (search chunks sims top_k m2).length ≤ (search chunks sims top_k m).length) := by
  intro chunks sims top_k m
  constructor
  · intro r hr
    exact (searchLoop_mem chunks sims top_k m (argsortDesc sims) 0 r hr).1
  · intro m2 hm
    exact searchLoop_length_mono chunks sims top_k hm (argsortDesc sims) 0

/-- Witness for claim C2 at a concrete two-chunk index with threshold 1. -/
theorem claim_C2_witness :
    (∀ r ∈ search [sampleChunkA, sampleChunkB] [1, 3] 5 1, 1 ≤ r.similarity) ∧
    (∀ m2 : ℚ, 1 ≤ m2 →
      (search [sampleChunkA, sampleChunkB] [1, 3] 5 m2).length ≤
        (search [sampleChunkA, sampleChunkB] [1, 3] 5 1).length) :=
  claim_C2 [sampleChunkA, sampleChunkB] [1, 3] 5 1

/-- Claim C3: search returns at most top_k results, their similarities are
non-increasing in list order, and the rank fields are exactly 1..len with no
gaps (stated for every threshold, hence for the default 0). -/
theorem claim_C3 : ∀ (chunks : List Chunk) (sims : List ℚ) (k : Nat) (m : ℚ),
    (search chunks sims k m).length ≤ k ∧
    (search chunks sims k m).Pairwise (fun r r2 => r2.similarity ≤ r.similarity) ∧
    (search chunks sims k m).map SearchResult.rank =
      List.range' 1 (search chunks sims k m).length := by
  intro chunks sims k m
  refine ⟨?_, ?_, ?_⟩
  · show (searchLoop chunks sims k m (argsortDesc sims) 0).length ≤ k
    have := searchLoop_length_le chunks sims k m (argsortDesc sims) 0
    omega
  · exact searchLoop_pairwise chunks sims k m (argsortDesc sims) 0
      (List.sorted_insertionSort (simGE sims) (List.range sims.length))
  · exact searchLoop_rank_map chunks sims k m (argsortDesc sims) 0

/-- Witness for claim C3 at a concrete two-chunk index with top_k 1. -/
theorem claim_C3_witness :
    (search [sampleChunkA, sampleChunkB] [1, 3] 1 0).length ≤ 1 ∧
    (search [sampleChunkA, sampleChunkB] [1, 3] 1 0).Pairwise
      (fun r r2 => r2.similarity ≤ r.similarity) ∧
    (search [sampleChunkA, sampleChunkB] [1, 3] 1 0).map SearchResult.rank =
      List.range' 1 (search [sampleChunkA, sampleChunkB] [1, 3] 1 0).length :=
  claim_C3 [sampleChunkA, sampleChunkB] [1, 3] 1 0

/-- Claim C5: whenever the search with the defaults of ask_question (top_k 5,
min_similarity 1/100) yields zero results, ask_question returns the fixed
not-found answer with empty sources and low confidence, and the external
generator is not called (the boolean component is false). -/
theorem claim_C5 : ∀ (question : List Char) (chunks : List Chunk) (sims : List ℚ)
    (generate : List Char → List Char),
    search chunks sims 5 (1/100) = [] →
    ask_question question chunks sims generate 5 (1/100) =
      ({ question := question, answer := notFoundAnswer, sources := [],
         confidence := Confidence.low, chunks_used := none, error := none }, false) := by
  intro question chunks sims generate h
  unfold ask_question
  rw [h]
  rfl

/-- Witness for claim C5: the empty index yields no results and the not-found
reply, with no generator call. -/
theorem claim_C5_witness :
    ask_question ['q'] [] [] (fun _ => []) 5 (1/100) =
      ({ question := ['q'], answer := notFoundAnswer, sources := [],
         confidence := Confidence.low, chunks_used := none, error := none }, false) :=
  claim_C5 ['q'] [] [] (fun _ => []) (by decide)

/-- Claim C6: for a question whose search yields a non-empty result list, the
confidence label returned by ask_question is high exactly when the mean
similarity exceeds 3/10, medium exactly when it exceeds 1/10 but not 3/10,
and low otherwise. -/
theorem claim_C6 : ∀ (question : List Char) (chunks : List Chunk) (sims : List ℚ)
    (generate : List Char → List Char),
    search chunks sims 5 (1/100) ≠ [] →
    (((ask_question question chunks sims generate 5 (1/100)).1.confidence = Confidence.high ↔
        3/10 < meanSim (search chunks sims 5 (1/100))) ∧
     ((ask_question question chunks sims generate 5 (1/100)).1.confidence = Confidence.medium ↔
        1/10 < meanSim (search chunks sims 5 (1/100)) ∧
          meanSim (search chunks sims 5 (1/100)) ≤ 3/10) ∧
     ((ask_question question chunks sims generate 5 (1/100)).1.confidence = Confidence.low ↔
        meanSim (search chunks sims 5 (1/100)) ≤ 1/10)) := by
  intro question chunks sims generate h
  have hne : (search chunks sims 5 (1/100)).isEmpty = false := by
    cases hs : search chunks sims 5 (1/100) with
    | nil => exact absurd hs h
    | cons a l => rfl
  have hconf : (ask_question question chunks sims generate 5 (1/100)).1.confidence =
      confidenceOf (search chunks sims 5 (1/100)) := by
    unfold ask_question
    simp only [hne]
    rfl
  rw [hconf]
  unfold confidenceOf
  by_cases h1 : 3/10 < meanSim (search chunks sims 5 (1/100))
  · rw [if_pos h1]
    refine ⟨iff_of_true rfl h1, iff_of_false (fun hc => Confidence.noConfusion hc) ?_,
      iff_of_false (fun hc => Confidence.noConfusion hc) ?_⟩
    · intro hc
      exact absurd h1 (not_lt.mpr hc.2)
    · intro hc
      exact absurd h1 (not_lt.mpr (le_trans hc (by norm_num)))
  · rw [if_neg h1]
    by_cases h2 : 1/10 < meanSim (search chunks sims 5 (1/100))
    · rw [if_pos h2]
      exact ⟨iff_of_false (fun hc => Confidence.noConfusion hc) h1,
        iff_of_true rfl ⟨h2, not_lt.mp h1⟩,
        iff_of_false (fun hc => Confidence.noConfusion hc) (not_le.mpr h2)⟩
    · rw [if_neg h2]
      exact ⟨iff_of_false (fun hc => Confidence.noConfusion hc) h1,
        iff_of_false (fun hc => Confidence.noConfusion hc) (fun hc => absurd hc.1 h2),
        iff_of_true rfl (not_lt.mp h2)⟩

/-- Witness for claim C6 at a one-chunk index with similarity 1 (mean 1,
label high). -/
theorem claim_C6_witness :
    (((ask_question ['q'] [sampleChunkA] [1] (fun _ => ['z']) 5 (1/100)).1.confidence =
        Confidence.high ↔ 3/10 < meanSim (search [sampleChunkA] [1] 5 (1/100))) ∧
     ((ask_question ['q'] [sampleChunkA] [1] (fun _ => ['z']) 5 (1/100)).1.confidence =
        Confidence.medium ↔
        1/10 < meanSim (search [sampleChunkA] [1] 5 (1/100)) ∧
          meanSim (search [sampleChunkA] [1] 5 (1/100)) ≤ 3/10) ∧
     ((ask_question ['q'] [sampleChunkA] [1] (fun _ => ['z']) 5 (1/100)).1.confidence =
        Confidence.low ↔ meanSim (search [sampleChunkA] [1] 5 (1/100)) ≤ 1/10)) :=
  claim_C6 ['q'] [sampleChunkA] [1] (fun _ => ['z'])
    (by
      have h : ¬ simAt [1] 0 < 1/100 := by norm_num [simAt]
      have h2 : (100:ℚ)⁻¹ ≤ simAt [1] 0 := by norm_num [simAt]
      simp [search, argsortDesc, List.insertionSort, List.orderedInsert, searchLoop, h, h2])

/-- Helper: full specification of the accumulation loop of the context
assembler for any starting estimate within the budget. -/
theorem contextParts_spec (budget : Nat) :
    ∀ (l : List SearchResult) (cur : Nat), cur ≤ budget →
      ∃ n, n ≤ l.length ∧
        contextParts budget l cur = (l.map formatChunk).take n ∧
        cur + (((l.map formatChunk).take n).map estTokens).sum ≤ budget ∧
        (n < l.length →
          budget < cur + (((l.map formatChunk).take n).map estTokens).sum
            + estTokens (formatChunk (l.getD n default))) := by
  intro l
  induction l with
  | nil =>
    intro cur hc
    exact ⟨0, by simp, by simp [contextParts], by simpa using hc, by simp⟩
  | cons r rest ih =>
    intro cur hc
    by_cases hb : budget < cur + estTokens (formatChunk r)
    · refine ⟨0, by simp, ?_, by simpa using hc, ?_⟩
      · rw [contextParts, if_pos hb]
        simp
      · intro _
        simpa using hb
    · push_neg at hb
      obtain ⟨n, hn, heq, hsum, hstop⟩ := ih (cur + estTokens (formatChunk r)) hb
      refine ⟨n + 1, by simpa using hn, ?_, ?_, ?_⟩
      · rw [contextParts, if_neg (not_lt.mpr hb), heq]
        simp
      · simp only [List.map_cons, List.take_succ_cons, List.sum_cons]
        omega
      · intro hlt
        have hs := hstop (by simpa using Nat.lt_of_succ_lt_succ hlt)
        simp only [List.map_cons, List.take_succ_cons, List.sum_cons, List.getD_cons_succ]
        omega

/-- Claim C7: the context assembler emits a prefix of the formatted chunks in
the supplied order (never truncating a chunk), its accumulated token estimate
(formatted length divided by 4 per chunk) stays within the budget, and it
stops exactly at the first chunk whose addition would exceed the budget. -/
theorem claim_C7 : ∀ (chunks : List SearchResult) (budget : Nat),
    ∃ n, n ≤ chunks.length ∧
      contextParts budget chunks 0 = (chunks.map formatChunk).take n ∧
      (((chunks.map formatChunk).take n).map estTokens).sum ≤ budget ∧
      (n < chunks.length →
        budget < (((chunks.map formatChunk).take n).map estTokens).sum
          + estTokens (formatChunk (chunks.getD n default))) ∧
      create_context_from_chunks chunks budget =
        List.intercalate ['\n'] ((chunks.map formatChunk).take n) := by
  intro chunks budget
  obtain ⟨n, h1, h2, h3, h4⟩ := contextParts_spec budget chunks 0 (Nat.zero_le budget)
  refine ⟨n, h1, h2, by simpa using h3, ?_, ?_⟩
  · intro hlt
    simpa using h4 hlt
  · unfold create_context_from_chunks
    rw [h2]

/-- Witness for claim C7 on the concrete one-result list with budget 0. -/
theorem claim_C7_witness :
    ∃ n, n ≤ ([sampleResult] : List SearchResult).length ∧
      contextParts 0 [sampleResult] 0 =
        (([sampleResult] : List SearchResult).map formatChunk).take n ∧
      (((([sampleResult] : List SearchResult).map formatChunk).take n).map estTokens).sum ≤ 0 ∧
      (n < ([sampleResult] : List SearchResult).length →
        0 < (((([sampleResult] : List SearchResult).map formatChunk).take n).map
              estTokens).sum
          + estTokens (formatChunk (([sampleResult] : List SearchResult).getD n default))) ∧
      create_context_from_chunks [sampleResult] 0 =
        List.intercalate ['\n'] ((([sampleResult] : List SearchResult).map formatChunk).take n) :=
  claim_C7 [sampleResult] 0

/-! Claim C1: termination of the chunker's scanning loop. -/

/-- Helper: whenever the loop advances, the next start is at least
start + chunk_size - overlap. -/
theorem nextStart_progress (text : List Char) (chunk_size overlap : Nat)
    (hov : overlap < chunk_size) :
    ∀ (start nxt : Int), nextStart text chunk_size overlap start = some nxt → start < nxt := by
  intro start nxt h
  unfold nextStart at h
  by_cases h1 : start < (text.length : Int)
  · rw [if_pos h1] at h
    by_cases h2 : (text.length : Int) ≤ chunkEnd text chunk_size start
    · rw [if_pos h2] at h
      cases h
    · rw [if_neg h2] at h
      have hn : nxt = max (start + chunk_size - overlap)
          (chunkEnd text chunk_size start - overlap) := by
        injection h with h3
        exact h3.symm
      have hle : start + chunk_size - overlap ≤ nxt := hn ▸ le_max_left _ _
      have hcs : (overlap : Int) < chunk_size := by exact_mod_cast hov
      omega
  · rw [if_neg h1] at h
    cases h

/-- Helper: fuel at least text.length - start suffices for the scanning loop
to reach its natural exit when overlap < chunk_size. -/
theorem splitLoop_isSome (text : List Char) (chunk_size overlap : Nat)
    (hov : overlap < chunk_size) :
    ∀ (fuel : Nat) (start : Int), (text.length : Int) ≤ start + fuel →
      (splitLoop text chunk_size overlap fuel start).isSome := by
  intro fuel
  induction fuel with
  | zero =>
    intro start hf
    rw [splitLoop]
    have h1 : ¬ start < (text.length : Int) := by
      simp only [Nat.cast_zero, add_zero] at hf
      omega
    rw [if_neg h1]
    rfl
  | succ f ih =>
    intro start hf
    rw [splitLoop]
    by_cases h1 : start < (text.length : Int)
    · rw [if_pos h1]
      by_cases h2 : (text.length : Int) ≤ chunkEnd text chunk_size start
      · simp [h2]
      · simp only [h2, if_false]
        have hcs : (overlap : Int) < chunk_size := by exact_mod_cast hov
        have hnext : (text.length : Int) ≤
            max (start + chunk_size - overlap) (chunkEnd text chunk_size start - overlap) + f := by
          have hle := le_max_left (start + (chunk_size : Int) - overlap)
            (chunkEnd text chunk_size start - overlap)
          push_cast at hf ⊢
          omega
        obtain ⟨v, hv⟩ := Option.isSome_iff_exists.mp (ih _ hnext)
        rw [hv]
        rfl
    · rw [if_neg h1]
      rfl

/-- Claim C1 (amended): for chunk_size at least 1 and overlap strictly below
chunk_size, every iteration of the scanning loop strictly increases start,
and the loop of split_text_into_chunks reaches its natural exit within
text.length iterations; the original claim's pathological case
overlap >= chunk_size is refuted by the counterexample. -/
theorem claim_C1 : ∀ (text : List Char) (chunk_size overlap : Nat),
    1 ≤ chunk_size → overlap < chunk_size →
    (∀ (start nxt : Int), nextStart text chunk_size overlap start = some nxt → start < nxt) ∧
    (splitLoop text chunk_size overlap text.length 0).isSome := by
  intro text chunk_size overlap _ hov
  refine ⟨nextStart_progress text chunk_size overlap hov, ?_⟩
  exact splitLoop_isSome text chunk_size overlap hov text.length 0 (by omega)

/-- Witness for claim C1 at a concrete text and configuration. -/
theorem claim_C1_witness :
    (∀ (start nxt : Int), nextStart "ab".toList 2 1 start = some nxt → start < nxt) ∧
    (splitLoop "ab".toList 2 1 ("ab".toList).length 0).isSome :=
  claim_C1 "ab".toList 2 1 (by decide) (by decide)

/-- Counterexample to claim C1 as stated: with chunk_size 1 and overlap 1
(the pathological case the claim includes), the iteration at start 0 of the
text aaaa advances to start 0 again, so start does not strictly increase and
the loop never terminates (every fuel is exhausted). -/
theorem claim_C1_counterexample :
    nextStart "aaaa".toList 1 1 0 = some 0 ∧
    splitLoop "aaaa".toList 1 1 6 0 = none := by
  exact ⟨by decide, by decide⟩


/-! Claims C9 and C10: shape of the output of the text normalizer. -/

/-- Helper: every character of a collapsed-runs pass is a space or fails the
collapsed predicate. -/
theorem mem_collapseRunsAux (p : Char → Bool) :
    ∀ (l : List Char) (b : Bool) (c : Char),
      c ∈ collapseRunsAux p b l → c = ' ' ∨ p c = false := by
  intro l
  induction l with
  | nil => intro b c h; simp [collapseRunsAux] at h
  | cons d rest ih =>
    intro b c h
    rw [collapseRunsAux] at h
    by_cases hd : p d = true
    · rw [if_pos hd] at h
      cases b with
      | true => exact ih true c h
      | false =>
        rcases List.mem_cons.mp h with h1 | h1
        · exact Or.inl h1
        · exact ih true c h1
    · rw [if_neg hd] at h
      rcases List.mem_cons.mp h with h1 | h1
      · subst h1
        exact Or.inr (by simpa using hd)
      · exact ih false c h1

/-- Helper: the whitespace-collapsing substitution leaves no newline. -/
theorem noNL_collapseRuns_space (l : List Char) : '\n' ∉ collapseRuns pyIsSpace l := by
  intro h
  rcases mem_collapseRunsAux pyIsSpace l false '\n' h with h1 | h1
  · exact absurd h1 (by decide)
  · exact absurd h1 (by decide)

/-- Unfolding: the non-anchor phase of the line-start substitution on the
empty string. -/
theorem slp_false_nil : stripLeadingPunct false [] = [] :=
  stripLeadingPunct.eq_2

/-- Unfolding: the non-anchor phase of the line-start substitution on a
non-empty string. -/
theorem slp_false_cons (c : Char) (rest : List Char) :
    stripLeadingPunct false (c :: rest) =
      if c = '\n' then c :: stripLeadingPunct true rest
      else c :: stripLeadingPunct false rest :=
  stripLeadingPunct.eq_3 c rest

/-- Unfolding: the anchor phase when the anchored pattern does not match. -/
theorem slp_anchor_none (l : List Char) (h : anchorMatch l = none) :
    stripLeadingPunct true l = stripLeadingPunct false l := by
  rw [stripLeadingPunct]
  split
  · next r heq => rw [h] at heq; cases heq
  · next r heq => rw [h] at heq; cases heq
  · rfl

/-- Unfolding: the anchor phase for a match whose last removed character was
a newline. -/
theorem slp_anchor_some_true (l r : List Char) (h : anchorMatch l = some (r, true)) :
    stripLeadingPunct true l = stripLeadingPunct true r := by
  rw [stripLeadingPunct]
  split
  · next r2 heq =>
    rw [h] at heq
    injection heq with heq2
    injection heq2 with h3 h4
    rw [h3]
  · next r2 heq =>
    rw [h] at heq
    injection heq with heq2
    injection heq2 with h3 h4
    cases h4
  · next heq => rw [h] at heq; cases heq

/-- Unfolding: the anchor phase for a match not ending in a newline. -/
theorem slp_anchor_some_false (l r : List Char) (h : anchorMatch l = some (r, false)) :
    stripLeadingPunct true l = stripLeadingPunct false r := by
  rw [stripLeadingPunct]
  split
  · next r2 heq =>
    rw [h] at heq
    injection heq with heq2
    injection heq2 with h3 h4
    cases h4
  · next r2 heq =>
    rw [h] at heq
    injection heq with heq2
    injection heq2 with h3 h4
    rw [h3]
  · next heq => rw [h] at heq; cases heq

/-- Helper: a successful anchor match only keeps characters of the input. -/
theorem anchorMatch_subset (l r : List Char) (b : Bool) (h : anchorMatch l = some (r, b)) :
    r ⊆ l := by
  unfold anchorMatch at h
  revert h
  cases hd : l.dropWhile pyIsSpace with
  | nil => intro h; cases h
  | cons c t =>
    by_cases hc : isPunctRun c = true
    · simp only [hc, if_true]
      intro h
      have hr : r = (t.dropWhile isPunctRun).dropWhile pyIsSpace := by
        injection h with h1
        injection h1 with h2 h3
        exact h2.symm
      intro x hx
      have hx1 : x ∈ t.dropWhile isPunctRun := List.dropWhile_subset pyIsSpace (hr ▸ hx)
      have hx2 : x ∈ t := List.dropWhile_subset isPunctRun hx1
      have hx3 : x ∈ l.dropWhile pyIsSpace := hd ▸ List.mem_cons_of_mem c hx2
      exact List.dropWhile_subset pyIsSpace hx3
    · simp only [hc, if_false]
      intro h
      cases h

/-- Helper: a successful anchor match removes at least one character. -/
theorem anchorMatch_length_lt (l r : List Char) (b : Bool)
    (h : anchorMatch l = some (r, b)) : r.length < l.length := by
  unfold anchorMatch at h
  revert h
  cases hd : l.dropWhile pyIsSpace with
  | nil => intro h; cases h
  | cons c t =>
    by_cases hc : isPunctRun c = true
    · simp only [hc, if_true]
      intro h
      have hr : r = (t.dropWhile isPunctRun).dropWhile pyIsSpace := by
        injection h with h1
        injection h1 with h2 h3
        exact h2.symm
      have h2 : r.length ≤ t.length := by
        rw [hr]
        exact le_trans (List.dropWhile_sublist pyIsSpace).length_le
          (List.dropWhile_sublist isPunctRun).length_le
      have h3 : t.length < (l.dropWhile pyIsSpace).length := by
        rw [hd]; simp
      exact lt_of_lt_of_le (lt_of_le_of_lt h2 h3)
        (List.dropWhile_sublist pyIsSpace).length_le
    · simp only [hc, if_false]
      intro h
      cases h

/-- Helper: the line-start substitution introduces no newline into a
newline-free string, in either phase. -/
theorem noNL_slp : ∀ (N : Nat) (l : List Char), l.length ≤ N → '\n' ∉ l →
    '\n' ∉ stripLeadingPunct false l ∧ '\n' ∉ stripLeadingPunct true l := by
  intro N
  induction N with
  | zero =>
    intro l hl hnl
    have hnil : l = [] := List.eq_nil_of_length_eq_zero (Nat.le_zero.mp hl)
    subst hnil
    have hanch : anchorMatch ([] : List Char) = none := rfl
    constructor
    · rw [slp_false_nil]; simp
    · rw [slp_anchor_none [] hanch, slp_false_nil]; simp
  | succ N ih =>
    intro l hl hnl
    have hfalse : '\n' ∉ stripLeadingPunct false l := by
      cases l with
      | nil => rw [slp_false_nil]; simp
      | cons c rest =>
        have hc : ¬ c = '\n' := fun hcc => hnl (hcc ▸ List.mem_cons_self c rest)
        rw [slp_false_cons, if_neg hc]
        intro hmem
        rcases List.mem_cons.mp hmem with h | h
        · exact hc h.symm
        · have hrest : rest.length ≤ N := by
            simp only [List.length_cons] at hl
            omega
          exact (ih rest hrest fun hr => hnl (List.mem_cons_of_mem c hr)).1 h
    refine ⟨hfalse, ?_⟩
    cases hm : anchorMatch l with
    | none => rw [slp_anchor_none l hm]; exact hfalse
    | some rb =>
      obtain ⟨r, b⟩ := rb
      have hlen : r.length < l.length := anchorMatch_length_lt l r b hm
      have hnr : '\n' ∉ r := fun hr => hnl (anchorMatch_subset l r b hm hr)
      have hN : r.length ≤ N := by omega
      cases b with
      | true => rw [slp_anchor_some_true l r hm]; exact (ih r hN hnr).2
      | false => rw [slp_anchor_some_false l r hm]; exact (ih r hN hnr).1

/-- Helper: the line-start substitution preserves newline-freeness. -/
theorem noNL_stripLeadingPunct (l : List Char) (h : '\n' ∉ l) :
    '\n' ∉ stripLeadingPunct true l :=
  (noNL_slp l.length l le_rfl h).2

/-- Helper: the blank-line collapsing substitution is the identity on
newline-free strings. -/
theorem collapseBlankLines_eq_of_noNL : ∀ (l : List Char), '\n' ∉ l →
    collapseBlankLines l = l := by
  intro l
  induction l with
  | nil => intro _; rw [collapseBlankLines]
  | cons c rest ih =>
    intro h
    have hc : ¬ c = '\n' := fun hcc => h (hcc ▸ List.mem_cons_self c rest)
    rw [collapseBlankLines, if_neg hc, ih fun hr => h (List.mem_cons_of_mem c hr)]

/-- Helper: splitting a newline-free string on newlines yields that string as
the only field. -/
theorem splitNL_of_noNL : ∀ (l : List Char), '\n' ∉ l → splitNL l = [l] := by
  intro l
  induction l with
  | nil => intro _; rfl
  | cons c rest ih =>
    intro h
    have hc : ¬ c = '\n' := fun hcc => h (hcc ▸ List.mem_cons_self c rest)
    rw [splitNL, if_neg hc, ih fun hr => h (List.mem_cons_of_mem c hr)]

/-- Helper: stripping only keeps characters of the input. -/
theorem pyStrip_subset (l : List Char) : pyStrip l ⊆ l := by
  intro x hx
  unfold pyStrip at hx
  rw [List.mem_reverse] at hx
  have hx2 := List.dropWhile_subset pyIsSpace hx
  rw [List.mem_reverse] at hx2
  exact List.dropWhile_subset pyIsSpace hx2

/-- Helper: the normalizer returns either the empty string or a single
newline-free stripped line of length above 2. -/
theorem clean_ocr_result (text : List Char) :
    clean_ocr_text text = [] ∨
      ('\n' ∉ clean_ocr_text text ∧ 2 < (clean_ocr_text text).length) := by
  have main : ∀ t4 : List Char, '\n' ∉ t4 →
      ((List.intercalate ['\n']
          (((splitNL (collapseBlankLines (stripLeadingPunct true t4))).map pyStrip).filter
            (fun l => decide (2 < l.length)))) = [] ∨
        ('\n' ∉ (List.intercalate ['\n']
            (((splitNL (collapseBlankLines (stripLeadingPunct true t4))).map pyStrip).filter
              (fun l => decide (2 < l.length)))) ∧
          2 < (List.intercalate ['\n']
            (((splitNL (collapseBlankLines (stripLeadingPunct true t4))).map pyStrip).filter
              (fun l => decide (2 < l.length)))).length)) := by
    intro t4 h4
    have h5 := noNL_stripLeadingPunct t4 h4
    rw [collapseBlankLines_eq_of_noNL _ h5, splitNL_of_noNL _ h5]
    by_cases hlen : 2 < (pyStrip (stripLeadingPunct true t4)).length
    · right
      rw [List.map_cons, List.map_nil,
        List.filter_cons_of_pos (by simpa using hlen), List.filter_nil]
      constructor
      · intro hmem
        have hm2 : '\n' ∈ pyStrip (stripLeadingPunct true t4) := by
          simpa [List.intercalate] using hmem
        exact h5 (pyStrip_subset _ hm2)
      · simpa [List.intercalate] using hlen
    · left
      rw [List.map_cons, List.map_nil,
        List.filter_cons_of_neg (by simpa using hlen), List.filter_nil]
      simp [List.intercalate]
  exact main
    (collapseRuns pyIsSpace
      ((removeRuledLines (collapseRuns (fun c => c == '|') text)).map
        (fun c => if allowedChar c then c else ' ')))
    (noNL_collapseRuns_space _)

/-- Claim C9: clean_ocr_text is a total deterministic function (a plain Lean
function of the input string) that returns either the empty string or a
string all of whose lines have length strictly above 2 (lines of length at
most 2 are dropped). -/
theorem claim_C9 : ∀ (text : List Char),
    clean_ocr_text text = [] ∨
      ((splitNL (clean_ocr_text text)).all fun l => decide (2 < l.length)) = true := by
  intro text
  rcases clean_ocr_result text with h | ⟨hn, hl⟩
  · exact Or.inl h
  · right
    rw [splitNL_of_noNL _ hn]
    simpa using hl

/-- Witness for claim C9 at a concrete input. -/
theorem claim_C9_witness :
    clean_ocr_text "ab cd".toList = [] ∨
      ((splitNL (clean_ocr_text "ab cd".toList)).all fun l => decide (2 < l.length)) = true :=
  claim_C9 "ab cd".toList

/-- Claim C10: the string returned by clean_ocr_text never contains a newline
(the whitespace collapsing replaces every whitespace run, newlines included,
by one space before the line filtering), so the output is a single line or
empty. -/
theorem claim_C10 : ∀ (text : List Char),
    (clean_ocr_text text).contains '\n' = false := by
  intro text
  rcases clean_ocr_result text with h | ⟨hn, -⟩
  · rw [h]; rfl
  · rw [← Bool.not_eq_true]
    intro hcon
    rcases List.contains_iff_exists_mem_beq.mp hcon with ⟨a, ha, hbeq⟩
    rw [beq_iff_eq] at hbeq
    exact hn (hbeq ▸ ha)

/-- Witness for claim C10 at a concrete input. -/
theorem claim_C10_witness : (clean_ocr_text "a\nbb\nccc".toList).contains '\n' = false :=
  claim_C10 "a\nbb\nccc".toList


/-- Claim C8 (code bug demonstration): loading a one-chunk snapshot and
calling get_chunk_context on its chunk id changes the snapshot itself: the
stored chunk dict acquires the is_target key (the source mutates the aliased
dicts of the loaded index instead of copies), so the loaded snapshot is not
read-only under query operations as the spec states. -/
theorem claim_C8 :
    (get_chunk_context
        { chunks := [{ chunk_id := ['c'], file_id := ['f'], filename := ['d'],
                       chunk_index := 0, text := ['t'], is_target := none }],
          embeddings := [[1]], model_name := ['m'], total_chunks := 1,
          embedding_dim := 1 } ['c'] 1).2 ≠
      ({ chunks := [{ chunk_id := ['c'], file_id := ['f'], filename := ['d'],
                      chunk_index := 0, text := ['t'], is_target := none }],
         embeddings := [[1]], model_name := ['m'], total_chunks := 1,
         embedding_dim := 1 } : Snapshot) ∧
    (get_chunk_context
        { chunks := [{ chunk_id := ['c'], file_id := ['f'], filename := ['d'],
                       chunk_index := 0, text := ['t'], is_target := none }],
          embeddings := [[1]], model_name := ['m'], total_chunks := 1,
          embedding_dim := 1 } ['c'] 1).2.chunks =
      [{ chunk_id := ['c'], file_id := ['f'], filename := ['d'],
         chunk_index := 0, text := ['t'], is_target := some true }] := by
  exact ⟨by decide, by decide⟩


/-! Claim C4: the overlap of consecutive chunk regions. -/

/-- Helper: slice normalization is the identity on in-range nonnegative
indices. -/
theorem pyNorm_coe {n : Nat} {i : Int} (h0 : 0 ≤ i) (h1 : i ≤ (n : Int)) :
    ((pyNorm n i : Nat) : Int) = i := by
  unfold pyNorm
  rw [if_neg (not_lt.mpr h0)]
  have h2 : i.toNat ≤ n := by omega
  rw [min_eq_left h2]
  omega

/-- Helper: the backward scan dominates every matching position. -/
theorem rfindAux_le (l : List Char) (c : Char) (lo : Nat) :
    ∀ (hi j : Nat), lo ≤ j → j < hi → l[j]? = some c →
      (j : Int) ≤ rfindAux l c lo hi := by
  intro hi
  induction hi with
  | zero => intro j h1 h2 h3; omega
  | succ hi ih =>
    intro j h1 h2 h3
    rw [rfindAux]
    by_cases hcond : lo ≤ hi ∧ l[hi]? = some c
    · rw [if_pos hcond]
      have hj : j ≤ hi := Nat.lt_succ_iff.mp h2
      exact_mod_cast hj
    · rw [if_neg hcond]
      have hj : j < hi := by
        rcases Nat.lt_succ_iff_lt_or_eq.mp h2 with h | h
        · exact h
        · subst h; exact absurd ⟨h1, h3⟩ hcond
      exact ih j h1 hj h3

/-- Helper: the backward scan returns -1 or a matching position in range. -/
theorem rfindAux_cases (l : List Char) (c : Char) (lo : Nat) :
    ∀ hi : Nat, rfindAux l c lo hi = -1 ∨
      ∃ j : Nat, rfindAux l c lo hi = (j : Int) ∧ lo ≤ j ∧ j < hi ∧ l[j]? = some c := by
  intro hi
  induction hi with
  | zero => exact Or.inl (by rw [rfindAux])
  | succ hi ih =>
    rw [rfindAux]
    by_cases hcond : lo ≤ hi ∧ l[hi]? = some c
    · rw [if_pos hcond]
      exact Or.inr ⟨hi, rfl, hcond.1, Nat.lt_succ_self hi, hcond.2⟩
    · rw [if_neg hcond]
      rcases ih with h | ⟨j, h1, h2, h3, h4⟩
      · exact Or.inl h
      · exact Or.inr ⟨j, h1, h2, Nat.lt_succ_of_lt h3, h4⟩

/-- Helper: rfind dominates every matching position of the window. -/
theorem pyRfind_le (l : List Char) (c : Char) {a b : Int} (ha0 : 0 ≤ a)
    (han : a ≤ (l.length : Int)) (hb0 : 0 ≤ b) (hbn : b ≤ (l.length : Int))
    (j : Nat) (hj1 : a ≤ (j : Int)) (hj2 : (j : Int) < b) (hc : l[j]? = some c) :
    (j : Int) ≤ pyRfind l c a b := by
  unfold pyRfind
  apply rfindAux_le
  · have := pyNorm_coe ha0 han
    omega
  · have := pyNorm_coe hb0 hbn
    omega
  · exact hc

/-- Helper: rfind returns -1 or a matching position of the window. -/
theorem pyRfind_cases (l : List Char) (c : Char) {a b : Int} (ha0 : 0 ≤ a)
    (han : a ≤ (l.length : Int)) (hb0 : 0 ≤ b) (hbn : b ≤ (l.length : Int)) :
    pyRfind l c a b = -1 ∨
      ∃ j : Nat, pyRfind l c a b = (j : Int) ∧ a ≤ (j : Int) ∧ (j : Int) < b ∧
        l[j]? = some c := by
  rcases rfindAux_cases l c (pyNorm l.length a) (pyNorm l.length b) with h | ⟨j, h1, h2, h3, h4⟩
  · exact Or.inl h
  · right
    refine ⟨j, h1, ?_, ?_, h4⟩
    · have := pyNorm_coe ha0 han; omega
    · have := pyNorm_coe hb0 hbn; omega

/-- Helper: the preferred break dominates every break character of the
window. -/
theorem bestBreak_ge (l : List Char) {a b : Int} (ha0 : 0 ≤ a)
    (han : a ≤ (l.length : Int)) (hb0 : 0 ≤ b) (hbn : b ≤ (l.length : Int))
    (j : Nat) (c : Char) (hj1 : a ≤ (j : Int)) (hj2 : (j : Int) < b)
    (hc : l[j]? = some c) (hbr : isBreakChar c = true) :
    (j : Int) ≤ bestBreak l a b := by
  unfold bestBreak
  have hor : c = ' ' ∨ c = '\n' ∨ c = '.' := by
    have hor2 : (c = ' ' ∨ c = '\n') ∨ c = '.' := by
      simpa [isBreakChar, Bool.or_eq_true, decide_eq_true_eq] using hbr
    tauto
  rcases hor with h | h | h
  · subst h
    exact le_trans (pyRfind_le l ' ' ha0 han hb0 hbn j hj1 hj2 hc)
      (le_trans (le_max_left _ _) (le_max_left _ _))
  · subst h
    exact le_trans (pyRfind_le l '\n' ha0 han hb0 hbn j hj1 hj2 hc)
      (le_trans (le_max_right _ _) (le_max_left _ _))
  · subst h
    exact le_trans (pyRfind_le l '.' ha0 han hb0 hbn j hj1 hj2 hc)
      (le_max_right _ _)

/-- Helper: a preferred break above the window start is an actual break
character of the window. -/
theorem bestBreak_sound (l : List Char) {a b : Int} (ha0 : 0 ≤ a)
    (han : a ≤ (l.length : Int)) (hb0 : 0 ≤ b) (hbn : b ≤ (l.length : Int))
    (h : a < bestBreak l a b) :
    ∃ (j : Nat) (c : Char), bestBreak l a b = (j : Int) ∧ a ≤ (j : Int) ∧
      (j : Int) < b ∧ l[j]? = some c ∧ isBreakChar c = true := by
  have key : ∀ c2 : Char, isBreakChar c2 = true → pyRfind l c2 a b = bestBreak l a b →
      ∃ (j : Nat) (c : Char), bestBreak l a b = (j : Int) ∧ a ≤ (j : Int) ∧
        (j : Int) < b ∧ l[j]? = some c ∧ isBreakChar c = true := by
    intro c2 hc2 heq
    rcases pyRfind_cases l c2 ha0 han hb0 hbn with hneg | ⟨j, h1, h2, h3, h4⟩
    · rw [hneg] at heq
      omega
    · exact ⟨j, c2, heq ▸ h1, h2, h3, h4, hc2⟩
  unfold bestBreak at h ⊢
  rcases max_choice (max (pyRfind l ' ' a b) (pyRfind l '\n' a b)) (pyRfind l '.' a b)
    with hm | hm
  · rcases max_choice (pyRfind l ' ' a b) (pyRfind l '\n' a b) with hm2 | hm2
    · exact key ' ' (by decide) (by unfold bestBreak; rw [hm, hm2])
    · exact key '\n' (by decide) (by unfold bestBreak; rw [hm, hm2])
  · exact key '.' (by decide) (by unfold bestBreak; rw [hm])

/-- Unfolding of chunkEnd. -/
theorem chunkEnd_eq (text : List Char) (cs : Nat) (s : Int) :
    chunkEnd text cs s =
      if min (s + (cs : Int)) (text.length : Int) < (text.length : Int) then
        (if s < bestBreak text s (min (s + (cs : Int)) (text.length : Int)) then
          bestBreak text s (min (s + (cs : Int)) (text.length : Int)) + 1
        else min (s + (cs : Int)) (text.length : Int))
      else min (s + (cs : Int)) (text.length : Int) := rfl

/-- Helper: full case analysis of a chunk end with an interior candidate end:
either no pullback happened and then no break character lies strictly inside
the window, or the end is one past the rightmost break character of the
window. -/
theorem chunkEnd_spec (text : List Char) (cs : Nat) (s : Int) (h0 : 0 ≤ s)
    (hsn : s < (text.length : Int)) :
    (¬ min (s + (cs : Int)) (text.length : Int) < (text.length : Int) →
      chunkEnd text cs s = min (s + (cs : Int)) (text.length : Int)) ∧
    (min (s + (cs : Int)) (text.length : Int) < (text.length : Int) →
      ((chunkEnd text cs s = min (s + (cs : Int)) (text.length : Int) ∧
        ∀ (j : Nat) (c : Char), s < (j : Int) →
          (j : Int) < min (s + (cs : Int)) (text.length : Int) →
          text[j]? = some c → isBreakChar c = false) ∨
       (∃ (j : Nat) (c : Char), chunkEnd text cs s = (j : Int) + 1 ∧ s < (j : Int) ∧
         (j : Int) < min (s + (cs : Int)) (text.length : Int) ∧ text[j]? = some c ∧
         isBreakChar c = true ∧
         ∀ (j2 : Nat) (c2 : Char), s ≤ (j2 : Int) →
           (j2 : Int) < min (s + (cs : Int)) (text.length : Int) →
           text[j2]? = some c2 → isBreakChar c2 = true → (j2 : Int) ≤ (j : Int)))) := by
  have hminn : min (s + (cs : Int)) (text.length : Int) ≤ (text.length : Int) :=
    min_le_right _ _
  have hmin0 : 0 ≤ min (s + (cs : Int)) (text.length : Int) := le_min (by omega) (by omega)
  refine ⟨?_, ?_⟩
  · intro hge
    rw [chunkEnd_eq, if_neg hge]
  · intro hlt
    rw [chunkEnd_eq, if_pos hlt]
    by_cases hbb : s < bestBreak text s (min (s + (cs : Int)) (text.length : Int))
    · rw [if_pos hbb]
      right
      obtain ⟨j, c, hj1, hj2, hj3, hj4, hj5⟩ :=
        bestBreak_sound text h0 (le_of_lt hsn) hmin0 hminn hbb
      refine ⟨j, c, by rw [hj1], by omega, hj3, hj4, hj5, ?_⟩
      intro j2 c2 hj21 hj22 hj23 hj24
      have hle := bestBreak_ge text h0 (le_of_lt hsn) hmin0 hminn j2 c2 hj21 hj22 hj23 hj24
      omega
    · rw [if_neg hbb]
      left
      refine ⟨rfl, ?_⟩
      intro j c hj1 hj2 hc
      by_contra hbrne
      rw [Bool.not_eq_false] at hbrne
      have hle := bestBreak_ge text h0 (le_of_lt hsn) hmin0 hminn j c (le_of_lt hj1) hj2 hc hbrne
      omega


/-- Helper: the first recorded region of a run starts at the given start and
ends at its chunk end. -/
theorem regionsLoop_head (text : List Char) (cs ov : Nat) :
    ∀ (fuel : Nat) (start : Int) (p : Int × Int),
      (regionsLoop text cs ov fuel start)[0]? = some p →
      p.1 = start ∧ start < (text.length : Int) ∧ p.2 = chunkEnd text cs start := by
  intro fuel start p h
  cases fuel with
  | zero =>
    rw [regionsLoop] at h
    by_cases hs : start < (text.length : Int)
    · rw [if_pos hs] at h
      simp at h
    · rw [if_neg hs] at h
      simp at h
  | succ f =>
    rw [regionsLoop] at h
    by_cases hs : start < (text.length : Int)
    · rw [if_pos hs] at h
      simp only [List.getElem?_cons_zero, Option.some.injEq] at h
      exact ⟨by rw [← h], hs, by rw [← h]⟩
    · rw [if_neg hs] at h
      simp at h

/-- Helper: consecutive recorded regions of a run are linked by the loop's
step: the earlier one ends before the text end at its chunk end, and the
later one starts at the advance position and ends at its own chunk end. -/
theorem regionsLoop_consecutive (text : List Char) (cs ov : Nat) :
    ∀ (fuel : Nat) (start : Int) (i : Nat) (s e s2 e2 : Int),
      (regionsLoop text cs ov fuel start)[i]? = some (s, e) →
      (regionsLoop text cs ov fuel start)[i + 1]? = some (s2, e2) →
      s < (text.length : Int) ∧ e = chunkEnd text cs s ∧ e < (text.length : Int) ∧
        s2 = max (s + cs - ov) (e - ov) ∧ s2 < (text.length : Int) ∧
        e2 = chunkEnd text cs s2 := by
  intro fuel
  induction fuel with
  | zero =>
    intro start i s e s2 e2 h1 h2
    rw [regionsLoop] at h1
    by_cases hs : start < (text.length : Int)
    · rw [if_pos hs] at h1
      simp at h1
    · rw [if_neg hs] at h1
      simp at h1
  | succ f ih =>
    intro start i s e s2 e2 h1 h2
    rw [regionsLoop] at h1 h2
    by_cases hs : start < (text.length : Int)
    · rw [if_pos hs] at h1 h2
      by_cases he : (text.length : Int) ≤ chunkEnd text cs start
      · rw [if_pos he] at h1 h2
        cases i with
        | zero => simp at h2
        | succ j => simp at h1
      · rw [if_neg he] at h1 h2
        cases i with
        | zero =>
          simp only [List.getElem?_cons_zero, Option.some.injEq] at h1
          injection h1 with ha hb
          simp only [List.getElem?_cons_succ] at h2
          obtain ⟨hp1, hp2, hp3⟩ := regionsLoop_head text cs ov f _ (s2, e2) h2
          subst ha
          refine ⟨hs, hb.symm, ?_, ?_, ?_, ?_⟩
          · rw [hb] at he
            exact not_le.mp he
          · rw [← hb]
            exact hp1
          · rw [← hp1] at hp2
            exact hp2
          · rw [← hp1] at hp3
            exact hp3
        | succ j =>
          simp only [List.getElem?_cons_succ] at h1 h2
          exact ih _ j s e s2 e2 h1 h2
    · rw [if_neg hs] at h1
      simp at h1

/-- Helper: starting from a nonnegative position, every recorded region start
is nonnegative when overlap does not exceed chunk_size. -/
theorem regionsLoop_nonneg (text : List Char) (cs ov : Nat) (hov : ov ≤ cs) :
    ∀ (fuel : Nat) (start : Int), 0 ≤ start →
      ∀ (i : Nat) (s e : Int),
        (regionsLoop text cs ov fuel start)[i]? = some (s, e) → 0 ≤ s := by
  intro fuel
  induction fuel with
  | zero =>
    intro start h0 i s e h
    rw [regionsLoop] at h
    by_cases hs : start < (text.length : Int)
    · rw [if_pos hs] at h
      simp at h
    · rw [if_neg hs] at h
      simp at h
  | succ f ih =>
    intro start h0 i s e h
    rw [regionsLoop] at h
    by_cases hs : start < (text.length : Int)
    · rw [if_pos hs] at h
      by_cases he : (text.length : Int) ≤ chunkEnd text cs start
      · rw [if_pos he] at h
        cases i with
        | zero =>
          simp only [List.getElem?_cons_zero, Option.some.injEq] at h
          injection h with ha hb
          omega
        | succ j => simp at h
      · rw [if_neg he] at h
        cases i with
        | zero =>
          simp only [List.getElem?_cons_zero, Option.some.injEq] at h
          injection h with ha hb
          omega
        | succ j =>
          simp only [List.getElem?_cons_succ] at h
          refine ih _ ?_ j s e h
          have hcs : (ov : Int) ≤ (cs : Int) := by exact_mod_cast hov
          have hmax := le_max_left (start + (cs : Int) - (ov : Int))
            (chunkEnd text cs start - (ov : Int))
          omega
    · rw [if_neg hs] at h
      simp at h

/-- Helper: the key geometric fact: when chunk i's region spans the full
chunk_size (no pullback shortened it) and the loop continues, the next
chunk's end is not smaller than chunk i's end. -/
theorem chunkEnd_next_ge (text : List Char) (cs ov : Nat) (s e s2 : Int)
    (hcs : 1 ≤ cs) (hov : ov ≤ cs) (h0 : 0 ≤ s) (hsn : s < (text.length : Int))
    (he : e = chunkEnd text cs s) (hefull : e = s + (cs : Int))
    (hen : e < (text.length : Int)) (hs2 : s2 = s + (cs : Int) - (ov : Int))
    (hs2n : s2 < (text.length : Int)) :
    e ≤ chunkEnd text cs s2 := by
  have hcsi : (1 : Int) ≤ (cs : Int) := by exact_mod_cast hcs
  have hovi : (ov : Int) ≤ (cs : Int) := by exact_mod_cast hov
  have h0s2 : 0 ≤ s2 := by omega
  have he0' : e ≤ min (s2 + (cs : Int)) (text.length : Int) := le_min (by omega) (by omega)
  obtain ⟨hc2a, hc2b⟩ := chunkEnd_spec text cs s2 h0s2 hs2n
  by_cases hlt2 : min (s2 + (cs : Int)) (text.length : Int) < (text.length : Int)
  · rcases hc2b hlt2 with ⟨heq2, -⟩ | ⟨j, c, heq2, hj1, hj2, hjc, hjbr, hjmax⟩
    · rw [heq2]
      exact he0'
    · -- chunk i+1 pulled back to break j; show j + 1 is at least e
      rw [heq2]
      by_contra hcon
      push_neg at hcon
      -- hcon : j + 1 < e
      have he0i : min (s + (cs : Int)) (text.length : Int) = e := by
        rw [min_eq_left (by omega)]
        omega
      obtain ⟨hc1a, hc1b⟩ := chunkEnd_spec text cs s h0 hsn
      have hlt1 : min (s + (cs : Int)) (text.length : Int) < (text.length : Int) := by
        rw [he0i]
        exact hen
      rcases hc1b hlt1 with ⟨heqi, hnobr⟩ | ⟨j0, c0, heqi, hj01, hj02, hj0c, hj0br, -⟩
      · -- no break inside chunk i's window, yet j is such a break
        have hj1s : s < (j : Int) := by omega
        have hj2e : (j : Int) < min (s + (cs : Int)) (text.length : Int) := by
          rw [he0i]
          omega
        have := hnobr j c hj1s hj2e hjc
        rw [this] at hjbr
        cases hjbr
      · -- chunk i's end is one past the break j0 = e - 1
        have hj0e : (j0 : Int) = e - 1 := by
          rw [← he] at heqi
          omega
        by_cases hov0 : ov = 0
        · -- then s2 = e and j > s2 contradicts j + 1 < e
          subst hov0
          simp only [Nat.cast_zero, sub_zero] at hs2
          omega
        · have hovi1 : (1 : Int) ≤ (ov : Int) := by
            have : 1 ≤ ov := Nat.one_le_iff_ne_zero.mpr hov0
            exact_mod_cast this
          have hrt := hjmax j0 c0 (by omega) (by omega) hj0c hj0br
          omega
  · rw [hc2a hlt2]
    exact he0'

/-- Claim C4 (amended): for chunk_size at least 1 and overlap at most
chunk_size, any two consecutive source regions visited by the chunker's
scanning loop share at least overlap characters provided the earlier region
was not shortened below chunk_size by the break-point rule; the original
unconditional claim is refuted by the counterexample, where the break rule
pulls the region short and the consecutive regions are disjoint. -/
theorem claim_C4 : ∀ (text : List Char) (chunk_size overlap fuel i : Nat) (s e s2 e2 : Int),
    1 ≤ chunk_size → overlap ≤ chunk_size →
    (regionsLoop text chunk_size overlap fuel 0)[i]? = some (s, e) →
    (regionsLoop text chunk_size overlap fuel 0)[i + 1]? = some (s2, e2) →
    e = s + (chunk_size : Int) →
    (overlap : Int) ≤ min e e2 - s2 := by
  intro text cs ov fuel i s e s2 e2 hcs hov h1 h2 hfull
  obtain ⟨hsn, he, hen, hs2eq, hs2n, he2⟩ := regionsLoop_consecutive text cs ov fuel 0 i s e s2 e2 h1 h2
  have h0s : 0 ≤ s := regionsLoop_nonneg text cs ov hov fuel 0 le_rfl i s e h1
  have hovi : (ov : Int) ≤ (cs : Int) := by exact_mod_cast hov
  have hs2 : s2 = s + (cs : Int) - (ov : Int) := by
    rw [hs2eq, hfull]
    omega
  have hge : e ≤ chunkEnd text cs s2 := by
    apply chunkEnd_next_ge text cs ov s e s2 hcs hov h0s hsn he hfull hen hs2 hs2n
  rw [← he2] at hge
  rw [min_eq_left hge]
  omega

/-- Witness for claim C4 at a break-free text where consecutive regions share
exactly overlap characters. -/
theorem claim_C4_witness : ((2 : Nat) : Int) ≤ min 4 6 - 2 :=
  claim_C4 "abcdefgh".toList 4 2 9 0 0 4 2 6 (by decide) (by decide)
    (by decide) (by decide) (by decide)

/-- Counterexample to claim C4 as stated: on the text "a bcdefg" with
chunk_size 4 and overlap 2 (a configuration with chunk_size >= overlap), the
space early in the first window pulls the first chunk's end back to
position 2, the loop then advances to start 2, and the source regions of the
first two chunks, positions 0..2 and 2..6, share zero characters although
the first chunk is not the last. -/
theorem claim_C4_counterexample :
    regionsLoop "a bcdefg".toList 4 2 9 0 = [(0, 2), (2, 6), (4, 8)] ∧
    split_text_into_chunks "a bcdefg".toList 4 2 =
      ["a".toList, "bcde".toList, "defg".toList] ∧
    pyStrip (pySlice "a bcdefg".toList 0 2) = "a".toList ∧
    pyStrip (pySlice "a bcdefg".toList 2 6) = "bcde".toList ∧
    min (2 : Int) 6 - max 0 2 < 2 := by
  exact ⟨by decide, by decide, by decide, by decide, by decide⟩


end Geo
